import Mathlib

/-!
Verification of `dag_checker.py` (`is_acyclic`), a Kahn's-algorithm
acyclicity checker for commit declarations `(commit_id, parents)`.

The embedding mirrors the Python function step by step:
* `parentMapOf` is the insertion-ordered `parent_map` dict (last write
  wins on the value, the key keeps its first-insertion position);
* `indexOfKey` is `id_to_index` (a key's position in `parent_map`);
* `adjOf` is the adjacency-list construction; a parent identifier that
  is not a key of `parent_map` makes it return `none`, modelling the
  `KeyError` that `id_to_index[pid]` raises in Python;
* `kahnLoop` is the `while queue:` loop counting visited nodes; the
  Python loop needs no fuel, and `is_acyclic` runs the Lean loop with
  fuel `n` (the node count), which is proved sufficient
  (`is_acyclicFuel_stable`);
* `is_acyclic` returns `Option Bool`: `some b` models returning the
  boolean `b`, `none` models the uncaught `KeyError`.
-/

namespace DagChecker

/-- A declaration: a commit identifier together with its list of parent
identifiers, i.e. one `(commit_id, parents)` tuple of the input list of
`is_acyclic` in `dag_checker.py`. -/
abbrev Decl := String × List String

/-- Assignment `m[k] = v` into an insertion-ordered association list with
last-write-wins semantics: an existing binding of `k` keeps its position
but gets the new value, a new key is appended at the end.  This is how a
Python `dict` behaves, and models `parent_map[commit_id] = parents.copy()`. -/
def insertLWW : List Decl → String → List String → List Decl
  | [], k, v => [(k, v)]
  | e :: m, k, v => if e.1 = k then (k, v) :: m else e :: insertLWW m k v

/-- `parent_map` after the first loop of `is_acyclic`: fold the input
declarations into an insertion-ordered map, later declarations of the
same identifier overwriting earlier ones. -/
def parentMapOf (commit_list : List Decl) : List Decl :=
  commit_list.foldl (fun m d => insertLWW m d.1 d.2) []

/-- The key sequence of an association list (`parent_map.keys()`). -/
def keys (m : List Decl) : List String := m.map Prod.fst

/-- `id_to_index[a]`: the position of key `a` in the map (Python assigns
`idx` by enumerating `parent_map.keys()`, so a key's index is its
position).  `none` models a `KeyError` on lookup of a missing key. -/
def indexOfKey : List Decl → String → Option Nat
  | [], _ => none
  | e :: m, a => if e.1 = a then some 0 else (indexOfKey m a).map (· + 1)

/-- Effectful map over a list in the `Option` monad, failing as soon as
one element fails. -/
def listMapM {α β : Type} (f : α → Option β) : List α → Option (List β)
  | [] => some []
  | x :: xs =>
    match f x, listMapM f xs with
    | some y, some ys => some (y :: ys)
    | _, _ => none

/-- The adjacency rows built by the edge-construction loop of
`is_acyclic`: the loop visits `parent_map.items()` in key order, and for
the entry of index `u` appends `id_to_index[pid]` to `adj[u]` for each
parent `pid` (note `u = id_to_index[cid]` is exactly the entry's
position).  `none` models the `KeyError` raised when some parent
identifier was never declared as a node. -/
def adjOf (pm : List Decl) : Option (List (List Nat)) :=
  listMapM (fun e => listMapM (fun p => indexOfKey pm p) e.2) pm

/-- One neighbor step of the Kahn loop body
(`in_degree[neighbor] -= 1; if in_degree[neighbor] == 0: queue.append(neighbor)`):
state is the pair (in-degree table, queue). -/
def stepNeighbors (dq : (Nat → Int) × List Nat) (v : Nat) : (Nat → Int) × List Nat :=
  let d : Nat → Int := fun x => if x = v then dq.1 x - 1 else dq.1 x
  (d, if d v = 0 then dq.2 ++ [v] else dq.2)

/-- The `while queue:` loop of `is_acyclic`, returning the final
`visited_count`.  Each iteration pops the queue's front, counts the node
as visited and folds `stepNeighbors` over its adjacency row.  `fuel`
bounds the number of iterations; `is_acyclic` supplies fuel `n`, proved
sufficient in `is_acyclicFuel_stable`. -/
def kahnLoop (adj : Nat → List Nat) : Nat → (Nat → Int) → List Nat → Nat → Nat
  | 0, _, _, visited => visited
  | fuel + 1, d, q, visited =>
    match q with
    | [] => visited
    | node :: rest =>
      let p := (adj node).foldl stepNeighbors (d, rest)
      kahnLoop adj fuel p.1 p.2 (visited + 1)

/-- `is_acyclic` from `dag_checker.py`, with the loop fuel made explicit.
`some b` models returning the boolean `b`; `none` models the uncaught
`KeyError` on a parent identifier that is not a declared node.  The
in-degree table after construction holds, for each node `v`, the number
of occurrences of `v` across all adjacency rows (each `adj[u].append(v)`
is paired with `in_degree[v] += 1`). -/
def is_acyclicFuel (fuel : Nat) (commit_list : List Decl) : Option Bool :=
  let pm := parentMapOf commit_list
  if pm.isEmpty then some true else
  match adjOf pm with
  | none => none
  | some adjL =>
    let n := pm.length
    let adj : Nat → List Nat := fun u => adjL.getD u []
    let inDeg : Nat → Int := fun v => (adjL.flatten.count v : Int)
    let queue : List Nat := (List.range n).filter (fun i => decide (inDeg i = 0))
    some (decide (kahnLoop adj fuel inDeg queue 0 = n))

/-- `n`, the number of distinct declared identifiers (`len(id_to_index)`). -/
def numNodes (commit_list : List Decl) : Nat := (parentMapOf commit_list).length

/-- `is_acyclic(commit_list)` from `dag_checker.py`. -/
def is_acyclic (commit_list : List Decl) : Option Bool :=
  is_acyclicFuel (numNodes commit_list) commit_list

/-- First-match lookup in an association list (`m[a]` for a Python dict,
whose keys are unique). -/
def lookupPM : List Decl → String → Option (List String)
  | [], _ => none
  | e :: m, a => if e.1 = a then some e.2 else lookupPM m a

/-- The effective (last-write-wins) parent list of identifier `a`: the
parent list of the last declaration of `a` in the sequence, `none` if
`a` is never declared.  This is the specification-level description of
override semantics, independent of the `parent_map` data structure. -/
def lastDecl : List Decl → String → Option (List String)
  | [], _ => none
  | d :: l, a =>
    match lastDecl l a with
    | some ps => some ps
    | none => if d.1 = a then some d.2 else none

/-- The edge relation of the graph described by a declaration sequence:
one directed edge from each declared node to each of its effective
(last-write-wins) parents. -/
def edgeRel (l : List Decl) (a b : String) : Prop :=
  ∃ ps, lastDecl l a = some ps ∧ b ∈ ps

/-- The graph of a declaration sequence contains a directed cycle: some
node reaches itself by a non-empty directed path. -/
def HasCycle (l : List Decl) : Prop :=
  ∃ v, Relation.TransGen (edgeRel l) v v

/-- Index-level edge relation of an adjacency-list graph: `u → v` iff
`v` occurs in row `u`. -/
def adjE (adjL : List (List Nat)) (u v : Nat) : Prop := v ∈ adjL.getD u []

/-- Every parent identifier occurring anywhere in the input sequence is
also declared as a node (appears as the left component of some
declaration). -/
def allParentsDeclared (l : List Decl) : Bool :=
  l.all (fun d => d.2.all (fun p => (keys (parentMapOf l)).contains p))

/-- Every parent identifier in the effective (last-write-wins) parent
map is declared as a node.  This is exactly the condition under which
the edge construction of `is_acyclic` does not hit a `KeyError`. -/
def allEffParentsDeclared (l : List Decl) : Bool :=
  (parentMapOf l).all (fun d => d.2.all (fun p => (keys (parentMapOf l)).contains p))

/-- Remove every non-final declaration of each identifier, keeping only
the last declaration of each, in the order of the last occurrences. -/
def dedupLast : List Decl → List Decl
  | [] => []
  | d :: l => if (l.map Prod.fst).contains d.1 then dedupLast l else d :: dedupLast l

/-- The `i`-th distinct node name used by the chain scenarios: a string
of `i` copies of `a` (any injective naming works). -/
def chainName (i : Nat) : String := String.mk (List.replicate i 'a')

/-- A chain of `N` nodes, each declaring exactly the previous node as
its sole parent (node `0` is the root with no parents). -/
def chainDecls (N : Nat) : List Decl :=
  (List.range N).map (fun i => (chainName i, if i = 0 then [] else [chainName (i - 1)]))

/-- The declarations of a chain continuing from node `prev`: each listed
name declares the name before it as its sole parent. -/
def chainFrom (prev : String) : List String → List Decl
  | [] => []
  | s :: rest => (s, [prev]) :: chainFrom s rest

/-- A chain on the names `s0 :: rest` whose earliest node `s0` declares
the latest name as its parent, closing the chain into a loop. -/
def closedChain (s0 : String) (rest : List String) : List Decl :=
  (s0, [(s0 :: rest).getLastD s0]) :: chainFrom s0 rest

/-- Ghost variant of `kahnLoop` recording the sequence of popped nodes
instead of their count. -/
def kahnVisits (adj : Nat → List Nat) : Nat → (Nat → Int) → List Nat → List Nat
  | 0, _, _ => []
  | fuel + 1, d, q =>
    match q with
    | [] => []
    | node :: rest =>
      let p := (adj node).foldl stepNeighbors (d, rest)
      node :: kahnVisits adj fuel p.1 p.2

/-- Remaining in-degree of `v` once the nodes in `V` have been processed:
the number of edges into `v` whose source is not yet visited. -/
def degSum (adj : Nat → List Nat) (n : Nat) (V : List Nat) (v : Nat) : Nat :=
  ((Finset.range n).filter (fun u => u ∉ V)).sum (fun u => (adj u).count v)

/-- Loop invariant of Kahn's algorithm relating the in-degree table `d`,
the queue `Q` and the list `V` of already visited nodes (in visit
order). -/
structure KInv (adj : Nat → List Nat) (n : Nat) (d : Nat → Int) (Q V : List Nat) : Prop where
  vNodup : V.Nodup
  qNodup : Q.Nodup
  disj : ∀ x ∈ Q, x ∉ V
  qLt : ∀ x ∈ Q, x < n
  vLt : ∀ x ∈ V, x < n
  deg : ∀ v, d v = (degSum adj n V v : Int)
  zeroIn : ∀ v < n, d v = 0 → v ∈ V ∨ v ∈ Q
  inZero : ∀ v, (v ∈ V ∨ v ∈ Q) → d v = 0
  topo : ∀ v ∈ Q, ∀ u, v ∈ adj u → u ∈ V
  vTopo : ∀ u v, v ∈ adj u → v ∈ V → u ∈ V ∧ V.indexOf u < V.indexOf v

/-! ### Basic facts about the parent map -/

theorem keys_nil : keys ([] : List Decl) = [] := rfl

theorem keys_cons (e : Decl) (m : List Decl) : keys (e :: m) = e.1 :: keys m := rfl

theorem keys_insertLWW (m : List Decl) (k : String) (v : List String) :
    keys (insertLWW m k v) = if k ∈ keys m then keys m else keys m ++ [k] := by
  induction m with
  | nil => simp [insertLWW, keys_nil, keys_cons]
  | cons e m ih =>
    by_cases h : e.1 = k
    · subst h
      simp [insertLWW, keys_cons, List.mem_cons]
    · have hne : ¬ (k = e.1) := fun hh => h hh.symm
      simp only [insertLWW, if_neg h, keys_cons, ih, List.mem_cons, hne, false_or]
      by_cases hk : k ∈ keys m
      · simp [hk]
      · simp [hk]

theorem mem_keys_foldl (l : List Decl) :
    ∀ (m : List Decl) (a : String),
      a ∈ keys (l.foldl (fun m d => insertLWW m d.1 d.2) m) ↔
        a ∈ keys m ∨ a ∈ l.map Prod.fst := by
  induction l with
  | nil => intro m a; simp
  | cons d l ih =>
    intro m a
    simp only [List.foldl_cons, List.map_cons, List.mem_cons]
    rw [ih, keys_insertLWW]
    by_cases h : d.1 ∈ keys m
    · simp only [if_pos h]
      constructor
      · rintro (hm | hl)
        · exact Or.inl hm
        · exact Or.inr (Or.inr hl)
      · rintro (hm | rfl | hl)
        · exact Or.inl hm
        · exact Or.inl h
        · exact Or.inr hl
    · simp only [if_neg h, List.mem_append, List.mem_singleton]
      tauto

theorem mem_keys_parentMapOf (l : List Decl) (a : String) :
    a ∈ keys (parentMapOf l) ↔ a ∈ l.map Prod.fst := by
  have h := mem_keys_foldl l [] a
  simpa [parentMapOf, keys_nil] using h

theorem nodup_keys_insertLWW (m : List Decl) (k : String) (v : List String)
    (h : (keys m).Nodup) : (keys (insertLWW m k v)).Nodup := by
  rw [keys_insertLWW]
  by_cases hk : k ∈ keys m
  · simpa [hk]
  · simp only [if_neg hk]
    rw [List.nodup_append]
    refine ⟨h, List.nodup_singleton k, ?_⟩
    intro a ha hak
    rw [List.mem_singleton] at hak
    exact hk (hak ▸ ha)

theorem nodup_keys_parentMapOf (l : List Decl) : (keys (parentMapOf l)).Nodup := by
  suffices h : ∀ m : List Decl, (keys m).Nodup →
      (keys (l.foldl (fun m d => insertLWW m d.1 d.2) m)).Nodup by
    simpa [parentMapOf] using h [] (by simp [keys_nil])
  induction l with
  | nil => intro m hm; simpa
  | cons d l ih => intro m hm; exact ih _ (nodup_keys_insertLWW _ _ _ hm)

theorem lookupPM_insertLWW (m : List Decl) (k : String) (v : List String) (a : String) :
    lookupPM (insertLWW m k v) a = if k = a then some v else lookupPM m a := by
  induction m with
  | nil => simp [insertLWW, lookupPM]
  | cons e m ih =>
    by_cases h : e.1 = k
    · subst h
      by_cases ha : e.1 = a <;> simp [insertLWW, lookupPM, ha]
    · simp only [insertLWW, if_neg h]
      by_cases ha : e.1 = a
      · have hka : ¬ (k = a) := fun hh => h (ha.trans hh.symm)
        simp [lookupPM, ha, hka]
      · simp [lookupPM, ha, ih]

theorem lookupPM_foldl (l : List Decl) :
    ∀ (m : List Decl) (a : String),
      lookupPM (l.foldl (fun m d => insertLWW m d.1 d.2) m) a =
        match lastDecl l a with
        | some ps => some ps
        | none => lookupPM m a := by
  induction l with
  | nil => intro m a; simp [lastDecl]
  | cons d l ih =>
    intro m a
    simp only [List.foldl_cons, lastDecl]
    rw [ih]
    cases h : lastDecl l a with
    | some ps => simp
    | none =>
      simp only [lookupPM_insertLWW]
      by_cases hda : d.1 = a
      · simp [hda]
      · simp [hda]

theorem lookupPM_parentMapOf (l : List Decl) (a : String) :
    lookupPM (parentMapOf l) a = lastDecl l a := by
  have h := lookupPM_foldl l [] a
  simp only [parentMapOf]
  rw [h]
  cases hl : lastDecl l a <;> simp [lookupPM]

theorem lookupPM_isSome_iff (m : List Decl) (a : String) :
    (lookupPM m a).isSome ↔ a ∈ keys m := by
  induction m with
  | nil => simp [lookupPM, keys_nil]
  | cons e m ih =>
    by_cases h : e.1 = a
    · subst h; simp [lookupPM, keys_cons]
    · simp [lookupPM, h, keys_cons, ih, List.mem_cons, (Ne.symm h : a ≠ e.1)]

theorem lastDecl_isSome_iff (l : List Decl) (a : String) :
    (lastDecl l a).isSome ↔ a ∈ l.map Prod.fst := by
  rw [← lookupPM_parentMapOf, lookupPM_isSome_iff, mem_keys_parentMapOf]

theorem lookupPM_mem : ∀ (m : List Decl) (a : String) (ps : List String),
    lookupPM m a = some ps → (a, ps) ∈ m := by
  intro m
  induction m with
  | nil => intro a ps h; simp [lookupPM] at h
  | cons e m ih =>
    intro a ps h
    by_cases he : e.1 = a
    · subst he
      simp only [lookupPM, if_pos trivial, ite_true, Option.some.injEq] at h
      subst h
      exact List.mem_cons_self e m
    · simp only [lookupPM, if_neg he] at h
      exact List.mem_cons_of_mem _ (ih a ps h)

theorem mem_of_lastDecl : ∀ (l : List Decl) (a : String) (ps : List String),
    lastDecl l a = some ps → (a, ps) ∈ l := by
  intro l
  induction l with
  | nil => intro a ps h; simp [lastDecl] at h
  | cons d l ih =>
    intro a ps h
    simp only [lastDecl] at h
    cases hl : lastDecl l a with
    | some qs =>
      rw [hl] at h
      simp only [Option.some.injEq] at h
      subst h
      exact List.mem_cons_of_mem _ (ih a qs hl)
    | none =>
      rw [hl] at h
      by_cases hda : d.1 = a
      · rw [if_pos hda] at h
        simp only [Option.some.injEq] at h
        subst h
        subst hda
        simp
      · rw [if_neg hda] at h
        simp at h

theorem lastDecl_of_nodup_mem : ∀ (l : List Decl), (l.map Prod.fst).Nodup →
    ∀ (a : String) (ps : List String), (a, ps) ∈ l → lastDecl l a = some ps := by
  intro l
  induction l with
  | nil => intro _ a ps h; simp at h
  | cons d l ih =>
    intro hnd a ps h
    rw [List.map_cons, List.nodup_cons] at hnd
    rcases List.mem_cons.mp h with heq | hmem
    · have ha : d.1 = a := by rw [← heq]
      have hps : d.2 = ps := by rw [← heq]
      have hnone : lastDecl l a = none := by
        cases hl : lastDecl l a with
        | none => rfl
        | some qs =>
          exfalso
          have hm := mem_of_lastDecl l a qs hl
          exact hnd.1 (ha ▸ List.mem_map_of_mem Prod.fst hm)
      simp [lastDecl, hnone, ha, hps]
    · have := ih hnd.2 a ps hmem
      simp [lastDecl, this]

theorem lookupPM_of_nodup_mem : ∀ (m : List Decl), (keys m).Nodup →
    ∀ (a : String) (ps : List String), (a, ps) ∈ m → lookupPM m a = some ps := by
  intro m
  induction m with
  | nil => intro _ a ps h; simp at h
  | cons e m ih =>
    intro hnd a ps h
    rw [keys_cons, List.nodup_cons] at hnd
    rcases List.mem_cons.mp h with heq | hmem
    · have ha : e.1 = a := by rw [← heq]
      have hps : e.2 = ps := by rw [← heq]
      simp [lookupPM, ha, hps]
    · have hne : ¬ (e.1 = a) := by
        intro hh
        exact hnd.1 (hh ▸ List.mem_map_of_mem Prod.fst hmem)
      simp [lookupPM, hne, ih hnd.2 a ps hmem]

theorem insertLWW_subset (m : List Decl) (k : String) (v : List String) :
    ∀ e ∈ insertLWW m k v, e = (k, v) ∨ e ∈ m := by
  induction m with
  | nil => intro e he; simpa [insertLWW] using he
  | cons d m ih =>
    intro e he
    by_cases h : d.1 = k
    · simp only [insertLWW, if_pos h] at he
      rcases List.mem_cons.mp he with h1 | h1
      · exact Or.inl h1
      · exact Or.inr (List.mem_cons_of_mem _ h1)
    · simp only [insertLWW, if_neg h] at he
      rcases List.mem_cons.mp he with h1 | h1
      · exact Or.inr (h1 ▸ List.mem_cons_self d m)
      · rcases ih e h1 with h2 | h2
        · exact Or.inl h2
        · exact Or.inr (List.mem_cons_of_mem _ h2)

theorem mem_parentMapOf_sub (l : List Decl) :
    ∀ e ∈ parentMapOf l, e ∈ l := by
  suffices h : ∀ (m : List Decl), ∀ e ∈ l.foldl (fun m d => insertLWW m d.1 d.2) m,
      e ∈ m ∨ e ∈ l by
    intro e he
    rcases h [] e he with h1 | h1
    · simp at h1
    · exact h1
  induction l with
  | nil => intro m e he; exact Or.inl he
  | cons d l ih =>
    intro m e he
    simp only [List.foldl_cons] at he
    rcases ih _ e he with h1 | h1
    · rcases insertLWW_subset m d.1 d.2 e h1 with h2 | h2
      · exact Or.inr (h2 ▸ List.mem_cons_self d l)
      · exact Or.inl h2
    · exact Or.inr (List.mem_cons_of_mem _ h1)

theorem parentMapOf_ne_nil (d : Decl) (l : List Decl) : parentMapOf (d :: l) ≠ [] := by
  suffices h : ∀ (l : List Decl) (m : List Decl), m ≠ [] →
      l.foldl (fun m d => insertLWW m d.1 d.2) m ≠ [] by
    intro hc
    refine h l (insertLWW [] d.1 d.2) (by simp [insertLWW]) ?_
    simpa [parentMapOf] using hc
  intro l
  induction l with
  | nil => intro m hm; simpa
  | cons e l ih =>
    intro m hm
    simp only [List.foldl_cons]
    refine ih _ ?_
    cases m with
    | nil => simp [insertLWW]
    | cons f m =>
      by_cases h : f.1 = e.1 <;> simp [insertLWW, h]

/-! ### Facts about `indexOfKey` and `listMapM` -/

theorem indexOfKey_some : ∀ (m : List Decl) (a : String) (i : Nat),
    indexOfKey m a = some i → ∃ h : i < m.length, (m.get ⟨i, h⟩).1 = a := by
  intro m
  induction m with
  | nil => intro a i h; simp [indexOfKey] at h
  | cons e m ih =>
    intro a i h
    by_cases he : e.1 = a
    · simp only [indexOfKey, if_pos he, Option.some.injEq] at h
      subst h
      exact ⟨Nat.succ_pos _, he⟩
    · simp only [indexOfKey, if_neg he] at h
      cases hm : indexOfKey m a with
      | none => rw [hm] at h; simp at h
      | some j =>
        rw [hm] at h
        simp only [Option.map_some', Option.some.injEq] at h
        subst h
        obtain ⟨hj, hja⟩ := ih a j hm
        exact ⟨Nat.succ_lt_succ hj, hja⟩

theorem indexOfKey_isSome_iff (m : List Decl) (a : String) :
    (indexOfKey m a).isSome ↔ a ∈ keys m := by
  induction m with
  | nil => simp [indexOfKey, keys_nil]
  | cons e m ih =>
    by_cases he : e.1 = a
    · subst he; simp [indexOfKey, keys_cons]
    · simp only [indexOfKey, if_neg he, keys_cons, List.mem_cons]
      rw [← ih]
      have hae : ¬ (a = e.1) := fun hh => he hh.symm
      cases hm : indexOfKey m a with
      | none => simp [hae]
      | some j => simp

theorem indexOfKey_get : ∀ (m : List Decl), (keys m).Nodup → ∀ (i : Nat) (h : i < m.length),
    indexOfKey m (m.get ⟨i, h⟩).1 = some i := by
  intro m
  induction m with
  | nil => intro _ i h; simp at h
  | cons e m ih =>
    intro hnd i h
    rw [keys_cons, List.nodup_cons] at hnd
    cases i with
    | zero => simp [indexOfKey]
    | succ j =>
      have hj : j < m.length := Nat.lt_of_succ_lt_succ h
      have hget : ((e :: m).get ⟨j + 1, h⟩) = m.get ⟨j, hj⟩ := rfl
      rw [hget]
      have hne : ¬ (e.1 = (m.get ⟨j, hj⟩).1) := by
        intro hh
        exact hnd.1 (hh ▸ List.mem_map_of_mem Prod.fst (List.get_mem m j hj))
      simp only [indexOfKey, if_neg hne, ih hnd.2 j hj, Option.map_some']

theorem listMapM_length {α β : Type} (f : α → Option β) :
    ∀ (xs : List α) (ys : List β), listMapM f xs = some ys → ys.length = xs.length := by
  intro xs
  induction xs with
  | nil => intro ys h; simp [listMapM] at h; simp [← h]
  | cons x xs ih =>
    intro ys h
    simp only [listMapM] at h
    cases hx : f x with
    | none => rw [hx] at h; simp at h
    | some y =>
      rw [hx] at h
      cases hxs : listMapM f xs with
      | none => rw [hxs] at h; simp at h
      | some zs =>
        rw [hxs] at h
        simp only [Option.some.injEq] at h
        subst h
        simp [ih zs hxs]

theorem listMapM_get {α β : Type} (f : α → Option β) :
    ∀ (xs : List α) (ys : List β), listMapM f xs = some ys →
      ∀ (i : Nat) (h1 : i < xs.length) (h2 : i < ys.length),
        f (xs.get ⟨i, h1⟩) = some (ys.get ⟨i, h2⟩) := by
  intro xs
  induction xs with
  | nil => intro ys h i h1; simp at h1
  | cons x xs ih =>
    intro ys h i h1 h2
    simp only [listMapM] at h
    cases hx : f x with
    | none => rw [hx] at h; simp at h
    | some y =>
      rw [hx] at h
      cases hxs : listMapM f xs with
      | none => rw [hxs] at h; simp at h
      | some zs =>
        rw [hxs] at h
        simp only [Option.some.injEq] at h
        subst h
        cases i with
        | zero => simpa using hx
        | succ j =>
          have hj1 : j < xs.length := Nat.lt_of_succ_lt_succ h1
          have hj2 : j < zs.length := Nat.lt_of_succ_lt_succ h2
          exact ih zs hxs j hj1 hj2

theorem listMapM_eq_none {α β : Type} (f : α → Option β) :
    ∀ (xs : List α), listMapM f xs = none ↔ ∃ x ∈ xs, f x = none := by
  intro xs
  induction xs with
  | nil => simp [listMapM]
  | cons x xs ih =>
    simp only [listMapM]
    cases hx : f x with
    | none =>
      simp only [List.mem_cons]
      constructor
      · intro _
        exact ⟨x, Or.inl rfl, hx⟩
      · intro _
        trivial
    | some y =>
      cases hxs : listMapM f xs with
      | none =>
        simp only [List.mem_cons]
        constructor
        · intro _
          obtain ⟨z, hz, hzn⟩ := ih.mp hxs
          exact ⟨z, Or.inr hz, hzn⟩
        · intro _
          trivial
      | some zs =>
        simp only [List.mem_cons]
        constructor
        · intro h
          exact absurd h (by simp)
        · rintro ⟨z, hz | hz, hzn⟩
          · exfalso
            rw [← hz] at hx
            rw [hx] at hzn
            exact Option.noConfusion hzn
          · exfalso
            have hn : listMapM f xs = none := ih.mpr ⟨z, hz, hzn⟩
            rw [hn] at hxs
            exact Option.noConfusion hxs

theorem listMapM_isSome {α β : Type} (f : α → Option β) (xs : List α)
    (h : ∀ x ∈ xs, (f x).isSome) : ∃ ys, listMapM f xs = some ys := by
  cases hx : listMapM f xs with
  | some ys => exact ⟨ys, rfl⟩
  | none =>
    obtain ⟨x, hxm, hxn⟩ := (listMapM_eq_none f xs).mp hx
    have := h x hxm
    rw [hxn] at this
    simp at this

theorem listMapM_mem {α β : Type} (f : α → Option β) :
    ∀ (xs : List α) (ys : List β), listMapM f xs = some ys →
      ∀ y, y ∈ ys ↔ ∃ x ∈ xs, f x = some y := by
  intro xs
  induction xs with
  | nil =>
    intro ys h y
    simp only [listMapM, Option.some.injEq] at h
    subst h
    simp
  | cons x xs ih =>
    intro ys h y
    simp only [listMapM] at h
    cases hx : f x with
    | none => rw [hx] at h; simp at h
    | some z =>
      rw [hx] at h
      cases hxs : listMapM f xs with
      | none => rw [hxs] at h; simp at h
      | some zs =>
        rw [hxs] at h
        simp only [Option.some.injEq] at h
        subst h
        simp only [List.mem_cons]
        constructor
        · rintro (rfl | hy)
          · exact ⟨x, Or.inl rfl, hx⟩
          · obtain ⟨w, hw, hwy⟩ := (ih zs hxs y).mp hy
            exact ⟨w, Or.inr hw, hwy⟩
        · rintro ⟨w, rfl | hw, hwy⟩
          · rw [hx] at hwy
            simp only [Option.some.injEq] at hwy
            exact Or.inl hwy.symm
          · exact Or.inr ((ih zs hxs y).mpr ⟨w, hw, hwy⟩)

/-! ### The Kahn loop: neighbor processing -/

theorem kahnVisits_nil (adj : Nat → List Nat) (fuel : Nat) (d : Nat → Int) :
    kahnVisits adj fuel d [] = [] := by
  cases fuel <;> simp [kahnVisits]

theorem kahnLoop_eq_visits (adj : Nat → List Nat) :
    ∀ (fuel : Nat) (d : Nat → Int) (q : List Nat) (c : Nat),
      kahnLoop adj fuel d q c = c + (kahnVisits adj fuel d q).length := by
  intro fuel
  induction fuel with
  | zero => intro d q c; simp [kahnLoop, kahnVisits]
  | succ fuel ih =>
    intro d q c
    cases q with
    | nil => simp [kahnLoop, kahnVisits]
    | cons node rest =>
      simp only [kahnLoop, kahnVisits, List.length_cons]
      rw [ih]
      omega

/-- Processing a neighbor list `ns` from state `(d, q)` decrements each
neighbor's in-degree once per occurrence and appends to the queue, once
each, exactly the nodes whose in-degree thereby reaches zero — provided
no in-degree is driven below zero (`hpre`), which the loop invariant
guarantees. -/
theorem foldl_stepNeighbors_spec :
    ∀ (ns : List Nat) (d : Nat → Int) (q : List Nat),
      (∀ v, (ns.count v : Int) ≤ d v) →
      (∀ v, (ns.foldl stepNeighbors (d, q)).1 v = d v - ns.count v) ∧
      ∃ new : List Nat,
        (ns.foldl stepNeighbors (d, q)).2 = q ++ new ∧
        new.Nodup ∧
        (∀ x, x ∈ new ↔ x ∈ ns ∧ d x = (ns.count x : Int)) := by
  intro ns
  induction ns with
  | nil =>
    intro d q hpre
    refine ⟨fun v => by simp, [], by simp, List.nodup_nil, fun x => by simp⟩
  | cons v ns ih =>
    intro d q hpre
    have hcs : ((v :: ns).count v : Int) = (ns.count v : Int) + 1 := by
      simp [List.count_cons]
    have hcn : ∀ w, w ≠ v → ((v :: ns).count w : Int) = (ns.count w : Int) := by
      intro w hw
      have h : (v :: ns).count w = ns.count w := by
        simp [List.count_cons, Ne.symm hw]
      rw [h]
    set d1 : Nat → Int := fun x => if x = v then d x - 1 else d x with hd1
    set q1 : List Nat := if d1 v = 0 then q ++ [v] else q with hq1
    have hstep : (v :: ns).foldl stepNeighbors (d, q) = ns.foldl stepNeighbors (d1, q1) := rfl
    have hd1v : d1 v = d v - 1 := by simp [hd1]
    have hd1x : ∀ x, x ≠ v → d1 x = d x := by
      intro x hx; simp [hd1, hx]
    have hpre1 : ∀ w, (ns.count w : Int) ≤ d1 w := by
      intro w
      by_cases hw : w = v
      · subst hw
        have h0 := hpre w
        rw [hcs] at h0
        rw [hd1v]
        omega
      · have h0 := hpre w
        rw [hcn w hw] at h0
        rw [hd1x w hw]
        exact h0
    obtain ⟨hfst, new, hsnd, hnodup, hmem⟩ := ih d1 q1 hpre1
    rw [hstep]
    constructor
    · intro w
      rw [hfst w]
      by_cases hw : w = v
      · subst hw
        rw [hcs, hd1v]
        ring
      · rw [hcn w hw, hd1x w hw]
    · by_cases hz : d1 v = 0
      · -- `v` got enqueued at this step
        have hdv : d v = 1 := by rw [hd1v] at hz; omega
        have hc0 : ns.count v = 0 := by
          have h0 := hpre1 v
          rw [hz] at h0
          omega
        have hvns : v ∉ ns := List.count_eq_zero.mp hc0
        refine ⟨v :: new, ?_, ?_, ?_⟩
        · rw [hsnd, hq1, if_pos hz, List.append_assoc]
          rfl
        · refine List.nodup_cons.mpr ⟨?_, hnodup⟩
          intro hv
          obtain ⟨h1, _⟩ := (hmem v).mp hv
          exact hvns h1
        · intro x
          by_cases hx : x = v
          · rw [hx]
            simp only [List.mem_cons, true_or, true_iff, true_and]
            rw [hcs, hdv, hc0]
            simp
          · simp only [List.mem_cons, hx, false_or]
            rw [hmem x, hd1x x hx, hcn x hx]
      · -- `v` was not enqueued at this step
        refine ⟨new, ?_, hnodup, ?_⟩
        · rw [hsnd, hq1, if_neg hz]
        · intro x
          by_cases hx : x = v
          · rw [hx]
            rw [hmem v, hd1v]
            simp only [List.mem_cons, true_or, true_and]
            rw [hcs]
            constructor
            · rintro ⟨_, h2⟩
              omega
            · intro h2
              have hne0 : ns.count v ≠ 0 := by
                intro h0
                rw [h0] at h2
                rw [hd1v] at hz
                simp at h2
                omega
              refine ⟨List.count_pos_iff.mp (Nat.pos_of_ne_zero hne0), ?_⟩
              omega
          · simp only [List.mem_cons, hx, false_or]
            rw [hmem x, hd1x x hx, hcn x hx]

/-! ### The Kahn loop: invariant preservation -/

theorem filter_notMem_append (n : Nat) (V : List Nat) (node : Nat) :
    ((Finset.range n).filter (fun u => u ∉ V ++ [node])) =
      ((Finset.range n).filter (fun u => u ∉ V)).erase node := by
  ext u
  simp only [Finset.mem_filter, Finset.mem_erase, Finset.mem_range, List.mem_append,
    List.mem_singleton]
  tauto

theorem degSum_step (adj : Nat → List Nat) (n : Nat) (V : List Nat) (node : Nat)
    (hn : node < n) (hnV : node ∉ V) (v : Nat) :
    (degSum adj n (V ++ [node]) v : Int) =
      (degSum adj n V v : Int) - ((adj node).count v : Int) := by
  have hmem : node ∈ (Finset.range n).filter (fun u => u ∉ V) := by
    simp [Finset.mem_filter, Finset.mem_range, hn, hnV]
  have h : (adj node).count v +
      ∑ u ∈ ((Finset.range n).filter (fun u => u ∉ V)).erase node, (adj u).count v =
      ∑ u ∈ (Finset.range n).filter (fun u => u ∉ V), (adj u).count v :=
    Finset.add_sum_erase ((Finset.range n).filter (fun u => u ∉ V))
      (fun u => (adj u).count v) hmem
  have h1 : degSum adj n (V ++ [node]) v =
      ∑ u ∈ ((Finset.range n).filter (fun u => u ∉ V)).erase node, (adj u).count v := by
    simp only [degSum]
    rw [filter_notMem_append]
  have h2 : degSum adj n V v =
      ∑ u ∈ (Finset.range n).filter (fun u => u ∉ V), (adj u).count v := rfl
  rw [h1, h2]
  omega

theorem count_le_degSum (adj : Nat → List Nat) (n : Nat) (V : List Nat) (node : Nat)
    (hn : node < n) (hnV : node ∉ V) (v : Nat) :
    (adj node).count v ≤ degSum adj n V v := by
  have hmem : node ∈ (Finset.range n).filter (fun u => u ∉ V) := by
    simp [Finset.mem_filter, Finset.mem_range, hn, hnV]
  have h : (adj node).count v ≤
      ∑ u ∈ (Finset.range n).filter (fun u => u ∉ V), (adj u).count v :=
    @Finset.single_le_sum Nat Nat _ (fun u => (adj u).count v)
      ((Finset.range n).filter (fun u => u ∉ V)) (fun i _ => Nat.zero_le _) node hmem
  exact h

theorem KInv_step (adj : Nat → List Nat) (n : Nat)
    (hadj : ∀ u v, v ∈ adj u → v < n) (hout : ∀ u, n ≤ u → adj u = [])
    (d : Nat → Int) (node : Nat) (rest V : List Nat)
    (hInv : KInv adj n d (node :: rest) V) :
    KInv adj n ((adj node).foldl stepNeighbors (d, rest)).1
      ((adj node).foldl stepNeighbors (d, rest)).2 (V ++ [node]) := by
  obtain ⟨vNodup, qNodup, disj, qLt, vLt, deg, zeroIn, inZero, topo, vTopo⟩ := hInv
  have hnodeQ : node ∈ node :: rest := List.mem_cons_self _ _
  have hnode_n : node < n := qLt node hnodeQ
  have hnodeV : node ∉ V := disj node hnodeQ
  have hnodeR : node ∉ rest := (List.nodup_cons.mp qNodup).1
  have hrestNodup : rest.Nodup := (List.nodup_cons.mp qNodup).2
  have hpre : ∀ v, ((adj node).count v : Int) ≤ d v := by
    intro v
    rw [deg v]
    exact_mod_cast count_le_degSum adj n V node hnode_n hnodeV v
  obtain ⟨hfst, new, hsnd, hnewNodup, hnewMem⟩ :=
    foldl_stepNeighbors_spec (adj node) d rest hpre
  have hnew_pos : ∀ x ∈ new, 0 < d x := by
    intro x hx
    obtain ⟨hxa, hxd⟩ := (hnewMem x).mp hx
    rw [hxd]
    exact_mod_cast List.count_pos_iff.mpr hxa
  have hnew_adj : ∀ x ∈ new, x ∈ adj node := by
    intro x hx
    exact ((hnewMem x).mp hx).1
  have hnew_notV : ∀ x ∈ new, x ∉ V := by
    intro x hx hxV
    have h0 := inZero x (Or.inl hxV)
    have h1 := hnew_pos x hx
    omega
  have hnew_notQ : ∀ x ∈ new, x ∉ node :: rest := by
    intro x hx hxQ
    have h0 := inZero x (Or.inr hxQ)
    have h1 := hnew_pos x hx
    omega
  have hdeg1 : ∀ v, ((adj node).foldl stepNeighbors (d, rest)).1 v =
      (degSum adj n (V ++ [node]) v : Int) := by
    intro v
    rw [hfst v, deg v, degSum_step adj n V node hnode_n hnodeV v]
  refine ⟨?_, ?_, ?_, ?_, ?_, hdeg1, ?_, ?_, ?_, ?_⟩
  · -- vNodup
    rw [List.nodup_append]
    refine ⟨vNodup, List.nodup_singleton _, ?_⟩
    intro a haV ha1
    rw [List.mem_singleton] at ha1
    exact hnodeV (ha1 ▸ haV)
  · -- qNodup
    rw [hsnd, List.nodup_append]
    refine ⟨hrestNodup, hnewNodup, ?_⟩
    intro a haR haN
    exact hnew_notQ a haN (List.mem_cons_of_mem _ haR)
  · -- disj
    intro x hx
    rw [hsnd, List.mem_append] at hx
    rw [List.mem_append, List.mem_singleton]
    rcases hx with hx | hx
    · rintro (hxV | rfl)
      · exact disj x (List.mem_cons_of_mem _ hx) hxV
      · exact hnodeR hx
    · rintro (hxV | rfl)
      · exact hnew_notV x hx hxV
      · exact hnew_notQ x hx (List.mem_cons_self _ _)
  · -- qLt
    intro x hx
    rw [hsnd, List.mem_append] at hx
    rcases hx with hx | hx
    · exact qLt x (List.mem_cons_of_mem _ hx)
    · exact hadj node x (hnew_adj x hx)
  · -- vLt
    intro x hx
    rw [List.mem_append, List.mem_singleton] at hx
    rcases hx with hx | rfl
    · exact vLt x hx
    · exact hnode_n
  · -- zeroIn
    intro v hv h0
    rw [hfst v] at h0
    by_cases hdv : d v = 0
    · rcases zeroIn v hv hdv with hV | hQ
      · exact Or.inl (List.mem_append.mpr (Or.inl hV))
      · rcases List.mem_cons.mp hQ with rfl | hR
        · exact Or.inl (List.mem_append.mpr (Or.inr (List.mem_singleton.mpr rfl)))
        · exact Or.inr (by rw [hsnd]; exact List.mem_append.mpr (Or.inl hR))
    · have hcnt : (adj node).count v ≠ 0 := by
        intro hc
        rw [hc] at h0
        simp at h0
        exact hdv h0
      have hvadj : v ∈ adj node := List.count_pos_iff.mp (Nat.pos_of_ne_zero hcnt)
      have hvnew : v ∈ new := (hnewMem v).mpr ⟨hvadj, by omega⟩
      exact Or.inr (by rw [hsnd]; exact List.mem_append.mpr (Or.inr hvnew))
  · -- inZero
    intro v hv
    rw [hfst v]
    rcases hv with hv | hv
    · rw [List.mem_append, List.mem_singleton] at hv
      have h0 : d v = 0 := by
        rcases hv with hv | rfl
        · exact inZero v (Or.inl hv)
        · exact inZero v (Or.inr hnodeQ)
      have hc : ((adj node).count v : Int) ≤ 0 := by
        rw [← h0]; exact hpre v
      have hc0 : (adj node).count v = 0 := by omega
      rw [h0, hc0]
      simp
    · rw [hsnd, List.mem_append] at hv
      rcases hv with hv | hv
      · have h0 : d v = 0 := inZero v (Or.inr (List.mem_cons_of_mem _ hv))
        have hc : ((adj node).count v : Int) ≤ 0 := by
          rw [← h0]; exact hpre v
        have hc0 : (adj node).count v = 0 := by omega
        rw [h0, hc0]
        simp
      · obtain ⟨_, hveq⟩ := (hnewMem v).mp hv
        omega
  · -- topo
    intro v hv u hvu
    rw [hsnd, List.mem_append] at hv
    rcases hv with hv | hv
    · exact List.mem_append.mpr (Or.inl (topo v (List.mem_cons_of_mem _ hv) u hvu))
    · -- v was newly enqueued: its remaining in-degree is 0
      have h0 : ((adj node).foldl stepNeighbors (d, rest)).1 v = 0 := by
        obtain ⟨_, hveq⟩ := (hnewMem v).mp hv
        rw [hfst v]
        omega
      rw [hdeg1 v] at h0
      have hsum : degSum adj n (V ++ [node]) v = 0 := by exact_mod_cast h0
      have hzero : ∀ w ∈ (Finset.range n).filter (fun w => w ∉ V ++ [node]),
          (adj w).count v = 0 := by
        rw [degSum] at hsum
        exact Finset.sum_eq_zero_iff.mp hsum
      by_contra hu
      have hu_n : u < n := by
        by_contra hun
        rw [hout u (Nat.le_of_not_lt hun)] at hvu
        simp at hvu
      have humem : u ∈ (Finset.range n).filter (fun w => w ∉ V ++ [node]) := by
        simp only [Finset.mem_filter, Finset.mem_range]
        exact ⟨hu_n, hu⟩
      have := hzero u humem
      rw [List.count_eq_zero] at this
      exact this hvu
  · -- vTopo
    intro u v hvu hvV
    rw [List.mem_append, List.mem_singleton] at hvV
    rcases hvV with hvV | rfl
    · obtain ⟨huV, hidx⟩ := vTopo u v hvu hvV
      refine ⟨List.mem_append.mpr (Or.inl huV), ?_⟩
      rw [List.indexOf_append_of_mem huV, List.indexOf_append_of_mem hvV]
      exact hidx
    · have huV : u ∈ V := topo v hnodeQ u hvu
      refine ⟨List.mem_append.mpr (Or.inl huV), ?_⟩
      rw [List.indexOf_append_of_mem huV, List.indexOf_append_of_not_mem hnodeV]
      have h1 : List.indexOf u V < V.length := List.indexOf_lt_length.mpr huV
      have h2 : List.indexOf v [v] = 0 := List.indexOf_cons_self v []
      omega

/-! ### The Kahn loop: main induction and correctness -/

theorem length_le_of_nodup_bound (V : List Nat) (n : Nat) (hnd : V.Nodup)
    (hlt : ∀ x ∈ V, x < n) : V.length ≤ n := by
  have h1 : V.toFinset.card = V.length := List.toFinset_card_of_nodup hnd
  have h2 : V.toFinset ⊆ Finset.range n := by
    intro x hx
    rw [List.mem_toFinset] at hx
    exact Finset.mem_range.mpr (hlt x hx)
  have h3 := Finset.card_le_card h2
  rw [h1, Finset.card_range] at h3
  exact h3

theorem mem_of_nodup_bound_length (V : List Nat) (n : Nat) (hnd : V.Nodup)
    (hlt : ∀ x ∈ V, x < n) (hlen : n ≤ V.length) : ∀ v < n, v ∈ V := by
  have h1 : V.toFinset.card = V.length := List.toFinset_card_of_nodup hnd
  have h2 : V.toFinset ⊆ Finset.range n := by
    intro x hx
    rw [List.mem_toFinset] at hx
    exact Finset.mem_range.mpr (hlt x hx)
  have h3 : Finset.range n = V.toFinset := by
    refine (Finset.eq_of_subset_of_card_le h2 ?_).symm
    rw [h1, Finset.card_range]
    exact hlen
  intro v hv
  have : v ∈ Finset.range n := Finset.mem_range.mpr hv
  rw [h3, List.mem_toFinset] at this
  exact this

theorem kahn_main (adj : Nat → List Nat) (n : Nat)
    (hadj : ∀ u v, v ∈ adj u → v < n) (hout : ∀ u, n ≤ u → adj u = []) :
    ∀ (fuel : Nat) (d : Nat → Int) (Q V : List Nat), KInv adj n d Q V →
      n ≤ fuel + V.length →
      (∃ dF, KInv adj n dF [] (V ++ kahnVisits adj fuel d Q)) ∧
      (∀ k, kahnVisits adj (fuel + k) d Q = kahnVisits adj fuel d Q) := by
  intro fuel
  induction fuel with
  | zero =>
    intro d Q V hInv hle
    have hQnil : Q = [] := by
      rcases Q with _ | ⟨x, Q⟩
      · rfl
      · exfalso
        have hx : x ∈ x :: Q := List.mem_cons_self _ _
        have hxn : x < n := hInv.qLt x hx
        have hxV : x ∈ V :=
          mem_of_nodup_bound_length V n hInv.vNodup hInv.vLt (by omega) x hxn
        exact hInv.disj x hx hxV
    subst hQnil
    constructor
    · exact ⟨d, by simpa [kahnVisits] using hInv⟩
    · intro k
      rw [kahnVisits_nil, kahnVisits_nil]
  | succ fuel ih =>
    intro d Q V hInv hle
    rcases Q with _ | ⟨node, rest⟩
    · constructor
      · exact ⟨d, by simpa [kahnVisits_nil] using hInv⟩
      · intro k
        rw [kahnVisits_nil, kahnVisits_nil]
    · have hstep := KInv_step adj n hadj hout d node rest V hInv
      have hle1 : n ≤ fuel + (V ++ [node]).length := by
        rw [List.length_append, List.length_singleton]
        omega
      obtain ⟨hfinal, hstable⟩ := ih _ _ _ hstep hle1
      constructor
      · obtain ⟨dF, hF⟩ := hfinal
        refine ⟨dF, ?_⟩
        have heq : V ++ kahnVisits adj (fuel + 1) d (node :: rest) =
            (V ++ [node]) ++ kahnVisits adj fuel
              ((adj node).foldl stepNeighbors (d, rest)).1
              ((adj node).foldl stepNeighbors (d, rest)).2 := by
          simp only [kahnVisits]
          rw [List.append_assoc]
          rfl
        rw [heq]
        exact hF
      · intro k
        have h1 : fuel + 1 + k = (fuel + k) + 1 := by omega
        rw [h1]
        simp only [kahnVisits]
        rw [hstable k]

theorem count_flatten_eq_sum (adjL : List (List Nat)) (v : Nat) :
    adjL.flatten.count v = ∑ i ∈ Finset.range adjL.length, (adjL.getD i []).count v := by
  induction adjL with
  | nil => simp
  | cons a t ih =>
    rw [List.flatten_cons, List.count_append, List.length_cons, Finset.sum_range_succ']
    simp only [List.getD_cons_zero, List.getD_cons_succ]
    rw [ih]
    omega

theorem KInv_init (adjL : List (List Nat)) (n : Nat) (hn : adjL.length = n)
    (hout : ∀ u, n ≤ u → adjL.getD u [] = []) :
    KInv (fun u => adjL.getD u []) n (fun v => (adjL.flatten.count v : Int))
      ((List.range n).filter (fun i => decide ((adjL.flatten.count i : Int) = 0))) [] := by
  have hdeg : ∀ v, (adjL.flatten.count v : Int) =
      (degSum (fun u => adjL.getD u []) n [] v : Int) := by
    intro v
    have h1 : degSum (fun u => adjL.getD u []) n [] v =
        ∑ u ∈ Finset.range n, (adjL.getD u []).count v := by
      simp only [degSum]
      congr 1
      apply Finset.filter_true_of_mem
      intro x _
      exact List.not_mem_nil x
    rw [h1, count_flatten_eq_sum, hn]
  have hsum0 : ∀ v, (adjL.flatten.count v : Int) = 0 →
      ∀ u, v ∈ adjL.getD u [] → False := by
    intro v h0 u hvu
    have hu_n : u < n := by
      by_contra hun
      rw [hout u (Nat.le_of_not_lt hun)] at hvu
      simp at hvu
    have hc : adjL.flatten.count v = 0 := by exact_mod_cast h0
    rw [count_flatten_eq_sum, hn] at hc
    have hterm := (Finset.sum_eq_zero_iff.mp hc) u (Finset.mem_range.mpr hu_n)
    rw [List.count_eq_zero] at hterm
    exact hterm hvu
  refine ⟨List.nodup_nil, ?_, ?_, ?_, ?_, hdeg, ?_, ?_, ?_, ?_⟩
  · exact (List.nodup_range n).filter _
  · intro x _
    exact List.not_mem_nil x
  · intro x hx
    have := List.mem_filter.mp hx
    exact List.mem_range.mp this.1
  · intro x hx
    exact absurd hx (List.not_mem_nil x)
  · intro v hv h0
    refine Or.inr (List.mem_filter.mpr ⟨List.mem_range.mpr hv, ?_⟩)
    exact decide_eq_true h0
  · intro v hv
    rcases hv with hv | hv
    · exact absurd hv (List.not_mem_nil v)
    · exact of_decide_eq_true (List.mem_filter.mp hv).2
  · intro v hv u hvu
    have h0 : (adjL.flatten.count v : Int) = 0 :=
      of_decide_eq_true (List.mem_filter.mp hv).2
    exact absurd hvu (fun hc => hsum0 v h0 u hc)
  · intro u v _ hvV
    exact absurd hvV (List.not_mem_nil v)

/-- Along a non-empty directed path, visit positions strictly increase;
hence a visited-all run is a certificate of acyclicity. -/
theorem transGen_indexOf_lt (adj : Nat → List Nat) (V : List Nat)
    (hvTopo : ∀ u v, v ∈ adj u → v ∈ V → u ∈ V ∧ V.indexOf u < V.indexOf v) :
    ∀ a b, Relation.TransGen (fun u v => v ∈ adj u) a b → b ∈ V →
      a ∈ V ∧ V.indexOf a < V.indexOf b := by
  intro a b h
  induction h with
  | single hab => exact fun hbV => hvTopo _ _ hab hbV
  | tail hab hbc ihab =>
    intro hcV
    obtain ⟨hbV, hbc_idx⟩ := hvTopo _ _ hbc hcV
    obtain ⟨haV, hab_idx⟩ := ihab hbV
    exact ⟨haV, Nat.lt_trans hab_idx hbc_idx⟩

/-- In a finite set where every element has a predecessor inside the
set, some element lies on a directed cycle. -/
theorem exists_cycle_of_pred (R : Nat → Nat → Prop) (S : Finset Nat) (hne : S.Nonempty)
    (hpred : ∀ w ∈ S, ∃ u, u ∈ S ∧ R u w) : ∃ x, Relation.TransGen R x x := by
  classical
  obtain ⟨w0, hw0⟩ := hne
  choose pred hpredS hpredR using hpred
  let g : {x // x ∈ S} → {x // x ∈ S} := fun y => ⟨pred y.1 y.2, hpredS y.1 y.2⟩
  let f : Nat → {x // x ∈ S} := fun k => g^[k] ⟨w0, hw0⟩
  have hstep : ∀ k, R (f (k + 1)).1 (f k).1 := by
    intro k
    have h1 : f (k + 1) = g (f k) := Function.iterate_succ_apply' g k _
    rw [h1]
    exact hpredR (f k).1 (f k).2
  have hchain : ∀ i j, i < j → Relation.TransGen R (f j).1 (f i).1 := by
    intro i j hij
    induction hij with
    | refl => exact Relation.TransGen.single (hstep i)
    | step hm ihm =>
      rename_i m
      exact Relation.TransGen.head (hstep m) ihm
  have hcard : Fintype.card {x // x ∈ S} < Fintype.card (Fin (S.card + 1)) := by
    rw [Fintype.card_coe, Fintype.card_fin]
    omega
  obtain ⟨i, j, hij, heq⟩ := Fintype.exists_ne_map_eq_of_card_lt
    (fun i : Fin (S.card + 1) => f i.1) hcard
  rcases lt_trichotomy i.1 j.1 with h | h | h
  · have hc := hchain i.1 j.1 h
    rw [← heq] at hc
    exact ⟨(f i.1).1, hc⟩
  · exact absurd (Fin.ext h) hij
  · have hc := hchain j.1 i.1 h
    rw [heq] at hc
    exact ⟨(f j.1).1, hc⟩

/-- Correctness of the Kahn loop at the index level: started on the
in-degree table and zero-in-degree queue built by `is_acyclic`, the
visited count equals the node count iff the adjacency graph has no
directed cycle. -/
theorem kahn_correct (adjL : List (List Nat)) (n : Nat) (hn : adjL.length = n)
    (hadj : ∀ u v, v ∈ adjL.getD u [] → v < n) :
    kahnLoop (fun u => adjL.getD u []) n (fun v => (adjL.flatten.count v : Int))
      ((List.range n).filter (fun i => decide ((adjL.flatten.count i : Int) = 0))) 0 = n
    ↔ ¬ ∃ i, Relation.TransGen (adjE adjL) i i := by
  have hout : ∀ u, n ≤ u → adjL.getD u [] = [] := by
    intro u hu
    apply List.getD_eq_default
    omega
  have hinit := KInv_init adjL n hn hout
  obtain ⟨⟨dF, hF⟩, _⟩ := kahn_main (fun u => adjL.getD u []) n hadj hout n
    (fun v => (adjL.flatten.count v : Int))
    ((List.range n).filter (fun i => decide ((adjL.flatten.count i : Int) = 0))) []
    hinit (by simp)
  rw [kahnLoop_eq_visits]
  set W : List Nat := kahnVisits (fun u => adjL.getD u []) n
    (fun v => (adjL.flatten.count v : Int))
    ((List.range n).filter (fun i => decide ((adjL.flatten.count i : Int) = 0))) with hWdef
  rw [List.nil_append] at hF
  simp only [Nat.zero_add]
  constructor
  · -- all nodes visited: the visit order is a certificate of acyclicity
    intro hlen
    rintro ⟨i, hcyc⟩
    have hcyc' : Relation.TransGen (fun u v => v ∈ adjL.getD u []) i i := hcyc
    have hi_n : i < n := by
      cases hcyc' with
      | single h => exact hadj i i h
      | tail h1 h2 => exact hadj _ i h2
    have hiW : i ∈ W :=
      mem_of_nodup_bound_length W n hF.vNodup hF.vLt (by omega) i hi_n
    have hrank := transGen_indexOf_lt (fun u => adjL.getD u []) W hF.vTopo i i hcyc' hiW
    exact absurd hrank.2 (lt_irrefl _)
  · -- acyclic: were some node unvisited, the unvisited set would contain a cycle
    intro hnc
    by_contra hlen_ne
    apply hnc
    have hlen_le : W.length ≤ n := length_le_of_nodup_bound W n hF.vNodup hF.vLt
    have hxe : ∃ x, x < n ∧ x ∉ W := by
      by_contra hc
      push_neg at hc
      have hsub : Finset.range n ⊆ W.toFinset := by
        intro x hx
        rw [List.mem_toFinset]
        exact hc x (Finset.mem_range.mp hx)
      have hcard := Finset.card_le_card hsub
      rw [Finset.card_range, List.toFinset_card_of_nodup hF.vNodup] at hcard
      omega
    obtain ⟨x0, hx0n, hx0W⟩ := hxe
    have hne : ((Finset.range n).filter (fun u => u ∉ W)).Nonempty :=
      ⟨x0, Finset.mem_filter.mpr ⟨Finset.mem_range.mpr hx0n, hx0W⟩⟩
    have hpred : ∀ w ∈ (Finset.range n).filter (fun u => u ∉ W),
        ∃ u, u ∈ (Finset.range n).filter (fun u => u ∉ W) ∧ adjE adjL u w := by
      intro w hw
      obtain ⟨hwn, hwW⟩ := Finset.mem_filter.mp hw
      have hw_n : w < n := Finset.mem_range.mp hwn
      have hdw : dF w ≠ 0 := by
        intro h0
        rcases hF.zeroIn w hw_n h0 with h | h
        · exact hwW h
        · exact absurd h (List.not_mem_nil w)
      rw [hF.deg w] at hdw
      have hsum : degSum (fun u => adjL.getD u []) n W w ≠ 0 := by
        intro hc
        rw [hc] at hdw
        exact hdw rfl
      by_contra hc
      push_neg at hc
      apply hsum
      apply Finset.sum_eq_zero
      intro u hu
      have hnadj := hc u hu
      rw [List.count_eq_zero]
      exact hnadj
    exact exists_cycle_of_pred (adjE adjL) _ hne hpred

/-! ### Bridging the string-level graph and the index-level graph -/

theorem contains_iff_mem (xs : List String) (a : String) :
    xs.contains a = true ↔ a ∈ xs := by
  simp [List.contains]

theorem allEffParentsDeclared_iff (l : List Decl) :
    allEffParentsDeclared l = true ↔
      ∀ a ps, lastDecl l a = some ps → ∀ b ∈ ps, b ∈ l.map Prod.fst := by
  simp only [allEffParentsDeclared, List.all_eq_true]
  constructor
  · intro h a ps hld b hb
    have hm : (a, ps) ∈ parentMapOf l :=
      lookupPM_mem _ _ _ (by rw [lookupPM_parentMapOf]; exact hld)
    have h3 := h (a, ps) hm b hb
    rw [contains_iff_mem, mem_keys_parentMapOf] at h3
    exact h3
  · intro h e he b hb
    rw [contains_iff_mem, mem_keys_parentMapOf]
    have h1 : lookupPM (parentMapOf l) e.1 = some e.2 :=
      lookupPM_of_nodup_mem _ (nodup_keys_parentMapOf l) e.1 e.2 (by simpa using he)
    have h2 : lastDecl l e.1 = some e.2 := by
      rw [← lookupPM_parentMapOf]; exact h1
    exact h e.1 e.2 h2 b hb

theorem allParentsDeclared_iff (l : List Decl) :
    allParentsDeclared l = true ↔
      ∀ d ∈ l, ∀ b ∈ d.2, b ∈ l.map Prod.fst := by
  simp only [allParentsDeclared, List.all_eq_true]
  constructor
  · intro h d hd b hb
    have h3 := h d hd b hb
    rw [contains_iff_mem, mem_keys_parentMapOf] at h3
    exact h3
  · intro h d hd b hb
    rw [contains_iff_mem, mem_keys_parentMapOf]
    exact h d hd b hb

theorem allEff_of_allParents (l : List Decl) (h : allParentsDeclared l = true) :
    allEffParentsDeclared l = true := by
  rw [allEffParentsDeclared_iff]
  rw [allParentsDeclared_iff] at h
  intro a ps hld b hb
  exact h (a, ps) (mem_of_lastDecl l a ps hld) b hb

theorem adjOf_some (l : List Decl) (h : allEffParentsDeclared l = true) :
    ∃ adjL, adjOf (parentMapOf l) = some adjL := by
  simp only [adjOf]
  apply listMapM_isSome
  intro e he
  have h1 : lastDecl l e.1 = some e.2 := by
    rw [← lookupPM_parentMapOf]
    exact lookupPM_of_nodup_mem _ (nodup_keys_parentMapOf l) e.1 e.2 (by simpa using he)
  have hinner : ∀ p ∈ e.2, (indexOfKey (parentMapOf l) p).isSome := by
    intro p hp
    rw [indexOfKey_isSome_iff, mem_keys_parentMapOf]
    rw [allEffParentsDeclared_iff] at h
    exact h e.1 e.2 h1 p hp
  obtain ⟨ys, hys⟩ := listMapM_isSome _ _ hinner
  rw [hys]
  rfl

theorem adjOf_none (l : List Decl) (h : allEffParentsDeclared l = false) :
    adjOf (parentMapOf l) = none := by
  have h1 : ¬ (allEffParentsDeclared l = true) := by simp [h]
  rw [allEffParentsDeclared_iff] at h1
  push_neg at h1
  obtain ⟨a, ps, hld, b, hb, hnb⟩ := h1
  simp only [adjOf]
  rw [listMapM_eq_none]
  refine ⟨(a, ps), ?_, ?_⟩
  · exact lookupPM_mem _ _ _ (by rw [lookupPM_parentMapOf]; exact hld)
  · rw [listMapM_eq_none]
    refine ⟨b, hb, ?_⟩
    cases hx : indexOfKey (parentMapOf l) b with
    | none => rfl
    | some j =>
      exfalso
      have hs : (indexOfKey (parentMapOf l) b).isSome := by rw [hx]; rfl
      rw [indexOfKey_isSome_iff, mem_keys_parentMapOf] at hs
      exact hnb hs

theorem parentMapOf_eq_nil_iff (l : List Decl) : parentMapOf l = [] ↔ l = [] := by
  constructor
  · intro h
    cases l with
    | nil => rfl
    | cons d l => exact absurd h (parentMapOf_ne_nil d l)
  · intro h; rw [h]; rfl

theorem edgeRel_nil_false (a b : String) : ¬ edgeRel [] a b := by
  rintro ⟨ps, h2, _⟩
  simp [lastDecl] at h2

theorem not_hasCycle_nil : ¬ HasCycle [] := by
  rintro ⟨v, h⟩
  cases h with
  | single h1 => exact edgeRel_nil_false _ _ h1
  | tail h1 h2 => exact edgeRel_nil_false _ _ h2

theorem adjE_iff (l : List Decl) (adjL : List (List Nat))
    (hadjL : adjOf (parentMapOf l) = some adjL) (u v : Nat) :
    adjE adjL u v ↔ ∃ h : u < (parentMapOf l).length,
      ∃ b ∈ ((parentMapOf l).get ⟨u, h⟩).2, indexOfKey (parentMapOf l) b = some v := by
  have hlen : adjL.length = (parentMapOf l).length := by
    apply listMapM_length _ (parentMapOf l) adjL
    simpa [adjOf] using hadjL
  by_cases hu : u < (parentMapOf l).length
  · have hu' : u < adjL.length := by omega
    have hrow : listMapM (fun p => indexOfKey (parentMapOf l) p)
        ((parentMapOf l).get ⟨u, hu⟩).2 = some (adjL.get ⟨u, hu'⟩) := by
      have := listMapM_get (fun e => listMapM (fun p => indexOfKey (parentMapOf l) p) e.2)
        (parentMapOf l) adjL (by simpa [adjOf] using hadjL) u hu hu'
      exact this
    constructor
    · intro hE
      rw [adjE, List.getD_eq_get adjL [] hu'] at hE
      obtain ⟨b, hbm, hbi⟩ := (listMapM_mem _ _ _ hrow v).mp hE
      exact ⟨hu, b, hbm, hbi⟩
    · rintro ⟨_, b, hbm, hbi⟩
      rw [adjE, List.getD_eq_get adjL [] hu']
      exact (listMapM_mem _ _ _ hrow v).mpr ⟨b, hbm, hbi⟩
  · constructor
    · intro hE
      rw [adjE, List.getD_eq_default] at hE
      · exact absurd hE (List.not_mem_nil v)
      · omega
    · rintro ⟨h, _⟩
      exact absurd h hu

theorem adjOf_targets_lt (l : List Decl) (adjL : List (List Nat))
    (hadjL : adjOf (parentMapOf l) = some adjL) :
    ∀ u v, v ∈ adjL.getD u [] → v < (parentMapOf l).length := by
  intro u v hv
  have hE : adjE adjL u v := hv
  rw [adjE_iff l adjL hadjL] at hE
  obtain ⟨_, b, _, hbi⟩ := hE
  obtain ⟨hvlt, _⟩ := indexOfKey_some _ _ _ hbi
  exact hvlt

theorem edgeRel_index (l : List Decl) (h : allEffParentsDeclared l = true)
    (adjL : List (List Nat)) (hadjL : adjOf (parentMapOf l) = some adjL)
    (a b : String) (hE : edgeRel l a b) :
    ∃ i j, indexOfKey (parentMapOf l) a = some i ∧
      indexOfKey (parentMapOf l) b = some j ∧ adjE adjL i j := by
  obtain ⟨ps, hld, hb⟩ := hE
  have hmem : (a, ps) ∈ parentMapOf l :=
    lookupPM_mem _ _ _ (by rw [lookupPM_parentMapOf]; exact hld)
  obtain ⟨u, hget⟩ := List.get_of_mem hmem
  have hia : indexOfKey (parentMapOf l) a = some u.1 := by
    have h1 := indexOfKey_get (parentMapOf l) (nodup_keys_parentMapOf l) u.1 u.2
    have h2 : (parentMapOf l).get ⟨u.1, u.2⟩ = (a, ps) := by
      rw [← hget]
    rw [h2] at h1
    exact h1
  have hbk : b ∈ keys (parentMapOf l) := by
    rw [mem_keys_parentMapOf]
    rw [allEffParentsDeclared_iff] at h
    exact h a ps hld b hb
  obtain ⟨j, hj⟩ := Option.isSome_iff_exists.mp ((indexOfKey_isSome_iff _ _).mpr hbk)
  refine ⟨u.1, j, hia, hj, ?_⟩
  rw [adjE_iff l adjL hadjL]
  refine ⟨u.2, b, ?_, hj⟩
  have h2 : (parentMapOf l).get ⟨u.1, u.2⟩ = (a, ps) := by rw [← hget]
  rw [h2]
  exact hb

theorem index_edgeRel (l : List Decl) (adjL : List (List Nat))
    (hadjL : adjOf (parentMapOf l) = some adjL) (u v : Nat) (hE : adjE adjL u v) :
    edgeRel l ((parentMapOf l).getD u ("", [])).1 ((parentMapOf l).getD v ("", [])).1 := by
  rw [adjE_iff l adjL hadjL] at hE
  obtain ⟨hu, b, hbmem, hbidx⟩ := hE
  obtain ⟨hv, hbv⟩ := indexOfKey_some _ _ _ hbidx
  rw [List.getD_eq_get _ _ hu, List.getD_eq_get _ _ hv]
  refine ⟨((parentMapOf l).get ⟨u, hu⟩).2, ?_, ?_⟩
  · rw [← lookupPM_parentMapOf]
    exact lookupPM_of_nodup_mem _ (nodup_keys_parentMapOf l) _ _
      (by simpa using List.get_mem (parentMapOf l) u hu)
  · rw [hbv]
    exact hbmem

theorem hasCycle_iff_adjE (l : List Decl) (h : allEffParentsDeclared l = true)
    (adjL : List (List Nat)) (hadjL : adjOf (parentMapOf l) = some adjL) :
    HasCycle l ↔ ∃ i, Relation.TransGen (adjE adjL) i i := by
  constructor
  · rintro ⟨v, hv⟩
    have hlift : ∀ a b, edgeRel l a b →
        adjE adjL ((indexOfKey (parentMapOf l) a).getD 0)
          ((indexOfKey (parentMapOf l) b).getD 0) := by
      intro a b hab
      obtain ⟨i, j, hia, hjb, hE⟩ := edgeRel_index l h adjL hadjL a b hab
      rw [hia, hjb]
      simpa using hE
    exact ⟨(indexOfKey (parentMapOf l) v).getD 0,
      Relation.TransGen.lift (fun x => (indexOfKey (parentMapOf l) x).getD 0) hlift hv⟩
  · rintro ⟨i, hi⟩
    have hlift : ∀ u v, adjE adjL u v →
        edgeRel l ((parentMapOf l).getD u ("", [])).1 ((parentMapOf l).getD v ("", [])).1 :=
      index_edgeRel l adjL hadjL
    exact ⟨((parentMapOf l).getD i ("", [])).1,
      Relation.TransGen.lift (fun u => ((parentMapOf l).getD u ("", [])).1) hlift hi⟩

/-! ### Master characterizations of `is_acyclic` -/

theorem is_acyclic_eq_none (l : List Decl) (h : allEffParentsDeclared l = false) :
    is_acyclic l = none := by
  have hne : l ≠ [] := by
    intro hl
    subst hl
    simp [allEffParentsDeclared, parentMapOf] at h
  have hpm : ¬ ((parentMapOf l).isEmpty = true) := by
    rw [List.isEmpty_iff]
    rw [parentMapOf_eq_nil_iff]
    exact hne
  simp only [is_acyclic, is_acyclicFuel]
  rw [if_neg hpm, adjOf_none l h]

theorem is_acyclic_nil : is_acyclic [] = some true := rfl

theorem is_acyclic_some_true_iff (l : List Decl) (h : allEffParentsDeclared l = true) :
    is_acyclic l = some true ↔ ¬ HasCycle l := by
  by_cases hl : l = []
  · subst hl
    constructor
    · intro _; exact not_hasCycle_nil
    · intro _; rfl
  · obtain ⟨adjL, hadjL⟩ := adjOf_some l h
    have hpm_ne : parentMapOf l ≠ [] := by
      rw [ne_eq, parentMapOf_eq_nil_iff]; exact hl
    have hpm : ¬ ((parentMapOf l).isEmpty = true) := by
      rw [List.isEmpty_iff]; exact hpm_ne
    have hadj := adjOf_targets_lt l adjL hadjL
    have hlen : adjL.length = (parentMapOf l).length :=
      listMapM_length _ _ _ (by simpa [adjOf] using hadjL)
    simp only [is_acyclic, is_acyclicFuel, numNodes]
    rw [if_neg hpm, hadjL]
    rw [Option.some_inj, decide_eq_true_iff]
    rw [kahn_correct adjL (parentMapOf l).length hlen hadj]
    rw [hasCycle_iff_adjE l h adjL hadjL]

theorem is_acyclic_ne_none (l : List Decl) (h : allEffParentsDeclared l = true) :
    is_acyclic l ≠ none := by
  by_cases hl : l = []
  · subst hl
    rw [is_acyclic_nil]
    simp
  · obtain ⟨adjL, hadjL⟩ := adjOf_some l h
    have hpm : ¬ ((parentMapOf l).isEmpty = true) := by
      rw [List.isEmpty_iff, parentMapOf_eq_nil_iff]; exact hl
    simp only [is_acyclic, is_acyclicFuel]
    rw [if_neg hpm, hadjL]
    simp

theorem is_acyclic_some (l : List Decl) (h : allEffParentsDeclared l = true) :
    is_acyclic l = some true ∨ is_acyclic l = some false := by
  cases hv : is_acyclic l with
  | none => exact absurd hv (is_acyclic_ne_none l h)
  | some b =>
    cases b with
    | true => exact Or.inl rfl
    | false => exact Or.inr rfl

theorem hasCycle_congr (l l' : List Decl)
    (hE : ∀ a b, edgeRel l a b ↔ edgeRel l' a b) : HasCycle l ↔ HasCycle l' := by
  constructor
  · rintro ⟨v, hv⟩
    exact ⟨v, Relation.TransGen.mono (fun a b => (hE a b).mp) hv⟩
  · rintro ⟨v, hv⟩
    exact ⟨v, Relation.TransGen.mono (fun a b => (hE a b).mpr) hv⟩

theorem allEff_congr (l l' : List Decl)
    (hE : ∀ a b, edgeRel l a b ↔ edgeRel l' a b)
    (hK : ∀ a, a ∈ l.map Prod.fst ↔ a ∈ l'.map Prod.fst) :
    allEffParentsDeclared l = allEffParentsDeclared l' := by
  have hiff : allEffParentsDeclared l = true ↔ allEffParentsDeclared l' = true := by
    rw [allEffParentsDeclared_iff, allEffParentsDeclared_iff]
    constructor
    · intro h a ps hld b hb
      have he : edgeRel l a b := (hE a b).mpr ⟨ps, hld, hb⟩
      obtain ⟨qs, hql, hbq⟩ := he
      exact (hK b).mp (h a qs hql b hbq)
    · intro h a ps hld b hb
      have he' : edgeRel l' a b := (hE a b).mp ⟨ps, hld, hb⟩
      obtain ⟨qs, hql, hbq⟩ := he'
      exact (hK b).mpr (h a qs hql b hbq)
  cases h1 : allEffParentsDeclared l <;> cases h2 : allEffParentsDeclared l' <;>
    simp_all

/-- The verdict of `is_acyclic` depends only on the effective edge
relation and the declared-identifier set. -/
theorem is_acyclic_congr (l l' : List Decl)
    (hE : ∀ a b, edgeRel l a b ↔ edgeRel l' a b)
    (hK : ∀ a, a ∈ l.map Prod.fst ↔ a ∈ l'.map Prod.fst) :
    is_acyclic l = is_acyclic l' := by
  have hAll := allEff_congr l l' hE hK
  cases hb : allEffParentsDeclared l' with
  | false =>
    rw [is_acyclic_eq_none l (by rw [hAll, hb]), is_acyclic_eq_none l' hb]
  | true =>
    have hA : allEffParentsDeclared l = true := by rw [hAll, hb]
    have hcyc := hasCycle_congr l l' hE
    rcases is_acyclic_some l hA with h1 | h1 <;> rcases is_acyclic_some l' hb with h2 | h2
    · rw [h1, h2]
    · exfalso
      have hnc : ¬ HasCycle l := (is_acyclic_some_true_iff l hA).mp h1
      have hcyc' : HasCycle l' := by
        by_contra hnn
        have hx := (is_acyclic_some_true_iff l' hb).mpr hnn
        rw [h2] at hx
        simp at hx
      exact hnc (hcyc.mpr hcyc')
    · exfalso
      have hnc : ¬ HasCycle l' := (is_acyclic_some_true_iff l' hb).mp h2
      have hcyc' : HasCycle l := by
        by_contra hnn
        have hx := (is_acyclic_some_true_iff l hA).mpr hnn
        rw [h1] at hx
        simp at hx
      exact hnc (hcyc.mp hcyc')
    · rw [h1, h2]

/-! ### Override, permutation and chain lemmas -/

theorem lastDecl_dedupLast : ∀ (l : List Decl) (a : String),
    lastDecl (dedupLast l) a = lastDecl l a := by
  intro l
  induction l with
  | nil => intro a; rfl
  | cons d l ih =>
    intro a
    by_cases h : ((l.map Prod.fst).contains d.1) = true
    · simp only [dedupLast, if_pos h]
      rw [ih a]
      simp only [lastDecl]
      cases hl : lastDecl l a with
      | some ps => rfl
      | none =>
        by_cases hda : d.1 = a
        · exfalso
          rw [contains_iff_mem] at h
          subst hda
          have hs := (lastDecl_isSome_iff l d.1).mpr h
          rw [hl] at hs
          simp at hs
        · rw [if_neg hda]
    · simp only [dedupLast, if_neg h, lastDecl, ih a]

theorem lastDecl_perm (l l' : List Decl) (hnd : (l.map Prod.fst).Nodup)
    (hp : l.Perm l') : ∀ a, lastDecl l a = lastDecl l' a := by
  intro a
  have hnd' : (l'.map Prod.fst).Nodup := ((hp.map Prod.fst).nodup_iff).mp hnd
  cases hl : lastDecl l a with
  | some ps =>
    have hm := mem_of_lastDecl l a ps hl
    have hm' : (a, ps) ∈ l' := hp.mem_iff.mp hm
    rw [lastDecl_of_nodup_mem l' hnd' a ps hm']
  | none =>
    cases hl' : lastDecl l' a with
    | none => rfl
    | some ps =>
      exfalso
      have hm' := mem_of_lastDecl l' a ps hl'
      have hm : (a, ps) ∈ l := hp.mem_iff.mpr hm'
      have h2 := lastDecl_of_nodup_mem l hnd a ps hm
      rw [hl] at h2
      exact Option.noConfusion h2

theorem lastDecl_append (u v : List Decl) (a : String) :
    lastDecl (u ++ v) a =
      match lastDecl v a with
      | some ps => some ps
      | none => lastDecl u a := by
  induction u with
  | nil =>
    rw [List.nil_append]
    cases lastDecl v a with
    | some ps => rfl
    | none => rfl
  | cons d u ih =>
    rw [List.cons_append]
    simp only [lastDecl, ih]
    cases lastDecl v a with
    | some ps => rfl
    | none => rfl

theorem chainName_inj : ∀ i j, chainName i = chainName j → i = j := by
  intro i j h
  have h2 := congrArg String.data h
  simp only [chainName] at h2
  have h3 := congrArg List.length h2
  simpa using h3

theorem chainDecls_map_fst (N : Nat) :
    (chainDecls N).map Prod.fst = (List.range N).map chainName := by
  simp [chainDecls, List.map_map]

theorem chainDecls_keys_nodup (N : Nat) : ((chainDecls N).map Prod.fst).Nodup := by
  rw [chainDecls_map_fst]
  have hinj : Function.Injective chainName := by
    intro i j h
    exact chainName_inj i j h
  exact (List.nodup_range N).map hinj

theorem chainDecls_allParents (N : Nat) : allParentsDeclared (chainDecls N) = true := by
  rw [allParentsDeclared_iff]
  intro d hd b hb
  rw [chainDecls, List.mem_map] at hd
  obtain ⟨i, hir, hfe⟩ := hd
  rw [List.mem_range] at hir
  have hps : (if i = 0 then [] else [chainName (i - 1)]) = d.2 := congrArg Prod.snd hfe
  rw [chainDecls_map_fst, List.mem_map]
  by_cases hi0 : i = 0
  · exfalso
    subst hi0
    rw [if_pos rfl] at hps
    rw [← hps] at hb
    simp at hb
  · rw [if_neg hi0] at hps
    rw [← hps, List.mem_singleton] at hb
    subst hb
    exact ⟨i - 1, List.mem_range.mpr (by omega), rfl⟩

theorem chain_edge (N : Nat) (a b : String) (h : edgeRel (chainDecls N) a b) :
    ∃ i, i < N ∧ 1 ≤ i ∧ a = chainName i ∧ b = chainName (i - 1) := by
  obtain ⟨ps, hld, hb⟩ := h
  have hm := mem_of_lastDecl _ _ _ hld
  rw [chainDecls, List.mem_map] at hm
  obtain ⟨i, hir, hfe⟩ := hm
  rw [List.mem_range] at hir
  have ha : chainName i = a := congrArg Prod.fst hfe
  have hps : (if i = 0 then [] else [chainName (i - 1)]) = ps := congrArg Prod.snd hfe
  by_cases hi0 : i = 0
  · exfalso
    subst hi0
    rw [if_pos rfl] at hps
    rw [← hps] at hb
    simp at hb
  · rw [if_neg hi0] at hps
    rw [← hps, List.mem_singleton] at hb
    exact ⟨i, hir, Nat.one_le_iff_ne_zero.mpr hi0, ha.symm, hb⟩

theorem chain_transGen (N : Nat) :
    ∀ a b, Relation.TransGen (edgeRel (chainDecls N)) a b →
      ∃ i j, a = chainName i ∧ b = chainName j ∧ j < i := by
  intro a b h
  induction h with
  | single hab =>
    obtain ⟨i, _, hi1, ha, hb⟩ := chain_edge N _ _ hab
    exact ⟨i, i - 1, ha, hb, by omega⟩
  | tail hab hbc ih =>
    obtain ⟨i, j, ha, hb, hji⟩ := ih
    obtain ⟨k, _, hk1, hbk, hc⟩ := chain_edge N _ _ hbc
    have hjk : j = k := chainName_inj j k (by rw [← hb, ← hbk])
    exact ⟨i, k - 1, ha, hc, by omega⟩

theorem chain_not_hasCycle (N : Nat) : ¬ HasCycle (chainDecls N) := by
  rintro ⟨v, hv⟩
  obtain ⟨i, j, ha, hb, hji⟩ := chain_transGen N v v hv
  have hij : i = j := chainName_inj i j (by rw [← ha, ← hb])
  omega

theorem chain_acyclic (N : Nat) : is_acyclic (chainDecls N) = some true := by
  rw [is_acyclic_some_true_iff _ (allEff_of_allParents _ (chainDecls_allParents N))]
  exact chain_not_hasCycle N

theorem chainFrom_keys : ∀ (rest : List String) (prev : String),
    (chainFrom prev rest).map Prod.fst = rest := by
  intro rest
  induction rest with
  | nil => intro prev; rfl
  | cons s t ih => intro prev; simp [chainFrom, ih]

theorem chainFrom_parents : ∀ (rest : List String) (prev : String) (e : Decl),
    e ∈ chainFrom prev rest →
      e.1 ∈ rest ∧ ∃ p, e.2 = [p] ∧ (p = prev ∨ p ∈ rest) := by
  intro rest
  induction rest with
  | nil => intro prev e h; simp [chainFrom] at h
  | cons s t ih =>
    intro prev e h
    simp only [chainFrom, List.mem_cons] at h
    rcases h with rfl | h
    · exact ⟨List.mem_cons_self _ _, prev, rfl, Or.inl rfl⟩
    · obtain ⟨h1, p, h2, h3⟩ := ih s e h
      refine ⟨List.mem_cons_of_mem _ h1, p, h2, ?_⟩
      rcases h3 with rfl | h3
      · exact Or.inr (List.mem_cons_self _ _)
      · exact Or.inr (List.mem_cons_of_mem _ h3)

theorem getLastD_mem_cons : ∀ (t : List String) (s : String),
    (s :: t).getLastD s ∈ s :: t := by
  intro t
  induction t with
  | nil => intro s; simp [List.getLastD_cons]
  | cons x t ih =>
    intro s
    rw [List.getLastD_cons]
    exact List.mem_cons_of_mem _ (ih x)

theorem chainFrom_path (l : List Decl) (hnd : (l.map Prod.fst).Nodup) :
    ∀ (rest : List String) (prev : String),
      (∀ e ∈ chainFrom prev rest, e ∈ l) →
      Relation.ReflTransGen (edgeRel l) ((prev :: rest).getLastD prev) prev := by
  intro rest
  induction rest with
  | nil =>
    intro prev _
    rw [List.getLastD_cons]
    exact Relation.ReflTransGen.refl
  | cons s t ih =>
    intro prev hsub
    have h1 : (s, [prev]) ∈ l := hsub _ (List.mem_cons_self _ _)
    have hedge : edgeRel l s prev :=
      ⟨[prev], lastDecl_of_nodup_mem l hnd s [prev] h1,
        List.mem_singleton.mpr rfl⟩
    have h2 := ih s (fun e he => hsub e (List.mem_cons_of_mem _ he))
    have heq : ((prev :: s :: t).getLastD prev) = ((s :: t).getLastD s) := by
      simp only [List.getLastD_cons]
    rw [heq]
    exact h2.tail hedge

theorem closedChain_keys (s0 : String) (rest : List String) :
    (closedChain s0 rest).map Prod.fst = s0 :: rest := by
  simp only [closedChain, List.map_cons, chainFrom_keys]

theorem closedChain_hasCycle (s0 : String) (rest : List String)
    (hnd : (s0 :: rest).Nodup) : HasCycle (closedChain s0 rest) := by
  have hnd' : ((closedChain s0 rest).map Prod.fst).Nodup := by
    rw [closedChain_keys]
    exact hnd
  have hhead : (s0, [(s0 :: rest).getLastD s0]) ∈ closedChain s0 rest :=
    List.mem_cons_self _ _
  have hedge : edgeRel (closedChain s0 rest) s0 ((s0 :: rest).getLastD s0) :=
    ⟨_, lastDecl_of_nodup_mem _ hnd' _ _ hhead, List.mem_singleton.mpr rfl⟩
  have hpath := chainFrom_path (closedChain s0 rest) hnd' rest s0
    (fun e he => List.mem_cons_of_mem _ he)
  exact ⟨s0, Relation.TransGen.trans_left (Relation.TransGen.single hedge) hpath⟩

theorem closedChain_allParents (s0 : String) (rest : List String) :
    allParentsDeclared (closedChain s0 rest) = true := by
  rw [allParentsDeclared_iff]
  intro d hd b hb
  rw [closedChain_keys]
  rcases List.mem_cons.mp hd with rfl | hd
  · rw [List.mem_singleton] at hb
    subst hb
    exact getLastD_mem_cons rest s0
  · obtain ⟨_, p, hp, hpm⟩ := chainFrom_parents rest s0 d hd
    rw [hp, List.mem_singleton] at hb
    subst hb
    rcases hpm with rfl | h
    · exact List.mem_cons_self _ _
    · exact List.mem_cons_of_mem _ h

/-! ### The claims -/

/-- Claim C1: for every declaration sequence in which every parent
identifier also occurs as a declared node, `is_acyclic` returns `true`
iff the graph built from the last-write-wins parent mapping contains no
directed cycle (equivalently, Kahn's visited count equals the node count
exactly when the graph is acyclic). -/
theorem is_acyclic_true_iff_no_cycle (l : List Decl)
    (h : allParentsDeclared l = true) :
    is_acyclic l = some true ↔ ¬ HasCycle l :=
  is_acyclic_some_true_iff l (allEff_of_allParents l h)

theorem is_acyclic_true_iff_no_cycle_witness :
    allParentsDeclared [("a", []), ("b", ["a"])] = true ∧
      (is_acyclic [("a", []), ("b", ["a"])] = some true ↔
        ¬ HasCycle [("a", []), ("b", ["a"])]) :=
  ⟨by decide, is_acyclic_true_iff_no_cycle [("a", []), ("b", ["a"])] (by decide)⟩

/-- Claim C2 (counterexample to the claim as stated): the input
`[("A", ["dangling"]), ("A", [])]` contains the parent identifier
`"dangling"` that never appears as a declared node, yet `is_acyclic`
does return a boolean (`true`): the dangling reference sits only in an
overridden declaration, and the edge construction looks up only
effective parents. -/
theorem dangling_in_overridden_decl_returns_bool :
    is_acyclic [("A", ["dangling"]), ("A", [])] = some true := by decide

/-- Claim C2 (amended): for every input whose effective (last-write-wins)
parent map contains a parent identifier never declared as a node,
`is_acyclic` does not return a boolean: the edge construction faults
with a missing-key error (modelled by `none`). -/
theorem dangling_effective_parent_faults (l : List Decl)
    (h : allEffParentsDeclared l = false) : is_acyclic l = none :=
  is_acyclic_eq_none l h

theorem dangling_effective_parent_faults_witness :
    allEffParentsDeclared [("A", ["Z"])] = false ∧
      is_acyclic [("A", ["Z"])] = none :=
  ⟨by decide, dangling_effective_parent_faults [("A", ["Z"])] (by decide)⟩

/-- Claim C3: override semantics are last-write-wins: `is_acyclic` of a
sequence equals `is_acyclic` of the sequence with every non-final
declaration of each identifier removed; in particular
`[(X, P), (X, P)]` behaves identically to `[(X, P)]`. -/
theorem override_last_write_wins :
    (∀ l : List Decl, is_acyclic (dedupLast l) = is_acyclic l) ∧
    (∀ (X : String) (P : List String),
      is_acyclic [(X, P), (X, P)] = is_acyclic [(X, P)]) := by
  have hpart1 : ∀ l : List Decl, is_acyclic (dedupLast l) = is_acyclic l := by
    intro l
    apply is_acyclic_congr
    · intro a b
      simp only [edgeRel]
      rw [lastDecl_dedupLast]
    · intro a
      rw [← lastDecl_isSome_iff, ← lastDecl_isSome_iff, lastDecl_dedupLast]
  refine ⟨hpart1, ?_⟩
  intro X P
  have hd : dedupLast [(X, P), (X, P)] = [(X, P)] := by
    simp [dedupLast, List.contains]
  have h2 := hpart1 [(X, P), (X, P)]
  rw [hd] at h2
  exact h2.symm

/-- Claim C4 (counterexample to the claim as stated): the input
`[("X", ["X"]), ("X", [])]` contains a declaration whose parent sequence
includes its own identifier, yet `is_acyclic` returns `true`, not
`false`: the self-loop declaration is overridden by the later
declaration of `"X"`. -/
theorem overridden_self_loop_not_false :
    is_acyclic [("X", ["X"]), ("X", [])] = some true ∧
      is_acyclic [("X", ["X"]), ("X", [])] ≠ some false := by
  constructor
  · decide
  · decide

/-- Claim C4 (amended): whenever the *effective* (last-write-wins)
parent list of some identifier contains that identifier itself, and all
effective parents are declared (so the construction does not fault
first), `is_acyclic` returns `false`. -/
theorem effective_self_parent_rejected (l : List Decl) (X : String)
    (ps : List String) (hAll : allEffParentsDeclared l = true)
    (hld : lastDecl l X = some ps) (hX : X ∈ ps) :
    is_acyclic l = some false := by
  have hcyc : HasCycle l := ⟨X, Relation.TransGen.single ⟨ps, hld, hX⟩⟩
  rcases is_acyclic_some l hAll with h | h
  · exfalso
    exact (is_acyclic_some_true_iff l hAll).mp h hcyc
  · exact h

theorem effective_self_parent_rejected_witness :
    allEffParentsDeclared [("X", ["X"])] = true ∧
      lastDecl [("X", ["X"])] "X" = some ["X"] ∧ "X" ∈ ["X"] ∧
      is_acyclic [("X", ["X"])] = some false :=
  ⟨by decide, by decide, by decide,
    effective_self_parent_rejected [("X", ["X"])] "X" ["X"]
      (by decide) (by decide) (by decide)⟩

/-- Claim C5: the verdict is order-independent: for every declaration
sequence with pairwise-distinct declared identifiers whose parent ids
are all declared, every permutation of the sequence yields the same
`is_acyclic` result; in particular, a chain of `N ≥ 1` nodes each
declaring exactly the previous node as its sole parent yields `true`
under any declaration order. -/
theorem verdict_order_independent :
    (∀ l l' : List Decl, (l.map Prod.fst).Nodup →
      allParentsDeclared l = true → l.Perm l' →
      is_acyclic l' = is_acyclic l) ∧
    (∀ N : Nat, 1 ≤ N → ∀ l' : List Decl, (chainDecls N).Perm l' →
      is_acyclic l' = some true) := by
  have hpart1 : ∀ l l' : List Decl, (l.map Prod.fst).Nodup →
      l.Perm l' → is_acyclic l' = is_acyclic l := by
    intro l l' hnd hp
    apply is_acyclic_congr
    · intro a b
      simp only [edgeRel]
      rw [lastDecl_perm l l' hnd hp a]
    · intro a
      rw [← lastDecl_isSome_iff, ← lastDecl_isSome_iff, lastDecl_perm l l' hnd hp a]
  refine ⟨fun l l' hnd _ hp => hpart1 l l' hnd hp, ?_⟩
  intro N _ l' hp
  rw [hpart1 (chainDecls N) l' (chainDecls_keys_nodup N) hp]
  exact chain_acyclic N

theorem verdict_order_independent_witness :
    (([("a", []), ("b", ["a"])] : List Decl).map Prod.fst).Nodup ∧
      allParentsDeclared [("a", []), ("b", ["a"])] = true ∧
      ([("a", []), ("b", ["a"])] : List Decl).Perm [("b", ["a"]), ("a", [])] ∧
      is_acyclic [("b", ["a"]), ("a", [])] = is_acyclic [("a", []), ("b", ["a"])] ∧
      1 ≤ 3 ∧ is_acyclic (chainDecls 3) = some true :=
  ⟨by decide, by decide, by decide,
    verdict_order_independent.1 [("a", []), ("b", ["a"])] [("b", ["a"]), ("a", [])]
      (by decide) (by decide) (by decide),
    by decide,
    verdict_order_independent.2 3 (by decide) (chainDecls 3) (List.Perm.refl _)⟩

/-- Claim C6: the empty declaration sequence yields `true`:
`is_acyclic [] = some true` (vacuously acyclic). -/
theorem empty_input_acyclic : is_acyclic [] = some true := rfl

/-- Claim C7: cycle-closing: for every acyclic chain of distinct nodes
each declaring the previous node as parent, replacing the earliest
(root) node's parent list with one pointing at the latest node makes
`is_acyclic` return `false`. -/
theorem cycle_closing_rejected (s0 : String) (rest : List String)
    (hnd : (s0 :: rest).Nodup) :
    is_acyclic (closedChain s0 rest) = some false := by
  have hAll := allEff_of_allParents _ (closedChain_allParents s0 rest)
  rcases is_acyclic_some _ hAll with h | h
  · exfalso
    exact (is_acyclic_some_true_iff _ hAll).mp h (closedChain_hasCycle s0 rest hnd)
  · exact h

theorem cycle_closing_rejected_witness :
    ("a" :: ["b", "c"]).Nodup ∧
      is_acyclic (closedChain "a" ["b", "c"]) = some false :=
  ⟨by decide, cycle_closing_rejected "a" ["b", "c"] (by decide)⟩

/-- Claim C8: `is_acyclic` terminates on every input whose parent ids
are all declared: the work queue processes each node at most once, so
running the loop with any fuel beyond the node count `n` changes
nothing — the loop needs at most `n` iterations and cannot run
indefinitely. -/
theorem kahn_loop_terminates (l : List Decl) (k : Nat)
    (h : allParentsDeclared l = true) :
    is_acyclicFuel (numNodes l + k) l = is_acyclic l := by
  by_cases hl : l = []
  · subst hl
    rfl
  · have hEff := allEff_of_allParents l h
    obtain ⟨adjL, hadjL⟩ := adjOf_some l hEff
    have hpm : ¬ ((parentMapOf l).isEmpty = true) := by
      rw [List.isEmpty_iff, parentMapOf_eq_nil_iff]
      exact hl
    have hadj := adjOf_targets_lt l adjL hadjL
    have hlen : adjL.length = (parentMapOf l).length :=
      listMapM_length _ _ _ (by simpa [adjOf] using hadjL)
    have hout : ∀ u, (parentMapOf l).length ≤ u → adjL.getD u [] = [] := by
      intro u hu
      apply List.getD_eq_default
      omega
    have hinit := KInv_init adjL (parentMapOf l).length hlen hout
    obtain ⟨_, hstable⟩ := kahn_main (fun u => adjL.getD u []) (parentMapOf l).length
      hadj hout (parentMapOf l).length (fun v => (adjL.flatten.count v : Int))
      ((List.range (parentMapOf l).length).filter
        (fun i => decide ((adjL.flatten.count i : Int) = 0))) [] hinit (by simp)
    simp only [is_acyclic, is_acyclicFuel, numNodes, if_neg hpm, hadjL]
    have hkl : kahnLoop (fun u => adjL.getD u []) ((parentMapOf l).length + k)
        (fun v => ((adjL.flatten.count v : Nat) : Int))
        ((List.range (parentMapOf l).length).filter
          (fun i => decide ((adjL.flatten.count i : Int) = 0))) 0 =
        kahnLoop (fun u => adjL.getD u []) (parentMapOf l).length
        (fun v => ((adjL.flatten.count v : Nat) : Int))
        ((List.range (parentMapOf l).length).filter
          (fun i => decide ((adjL.flatten.count i : Int) = 0))) 0 := by
      rw [kahnLoop_eq_visits, kahnLoop_eq_visits, hstable k]
    simp only [hkl]

theorem kahn_loop_terminates_witness :
    allParentsDeclared [("a", []), ("b", ["a"])] = true ∧
      is_acyclicFuel (numNodes [("a", []), ("b", ["a"])] + 5) [("a", []), ("b", ["a"])] =
        is_acyclic [("a", []), ("b", ["a"])] :=
  ⟨by decide, kahn_loop_terminates [("a", []), ("b", ["a"])] 5 (by decide)⟩

/-- Claim C10: the result is invariant under reordering parents within a
declaration: for every input whose parent ids are all declared,
permuting the parent-id sequence of any single declaration (keeping
multiplicities) leaves the `is_acyclic` result unchanged. -/
theorem parent_permutation_irrelevant (l1 l2 : List Decl) (x : String)
    (ps qs : List String) (hperm : ps.Perm qs)
    (h : allParentsDeclared (l1 ++ (x, ps) :: l2) = true) :
    is_acyclic (l1 ++ (x, qs) :: l2) = is_acyclic (l1 ++ (x, ps) :: l2) := by
  apply is_acyclic_congr
  · intro a b
    simp only [edgeRel]
    rw [lastDecl_append, lastDecl_append]
    simp only [lastDecl]
    cases h2 : lastDecl l2 a with
    | some rs => rfl
    | none =>
      by_cases hxa : x = a
      · simp only [if_pos hxa]
        constructor
        · rintro ⟨ps', hps', hb⟩
          simp only [Option.some.injEq] at hps'
          subst hps'
          exact ⟨ps, rfl, hperm.mem_iff.mpr hb⟩
        · rintro ⟨ps', hps', hb⟩
          simp only [Option.some.injEq] at hps'
          subst hps'
          exact ⟨qs, rfl, hperm.mem_iff.mp hb⟩
      · simp only [if_neg hxa]
  · intro a
    have heq : (l1 ++ (x, qs) :: l2).map Prod.fst =
        (l1 ++ (x, ps) :: l2).map Prod.fst := by
      simp
    rw [heq]

theorem parent_permutation_irrelevant_witness :
    (["p", "q"] : List String).Perm ["q", "p"] ∧
      allParentsDeclared [("p", []), ("q", []), ("m", ["p", "q"])] = true ∧
      is_acyclic [("p", []), ("q", []), ("m", ["q", "p"])] =
        is_acyclic [("p", []), ("q", []), ("m", ["p", "q"])] :=
  ⟨by decide, by decide,
    parent_permutation_irrelevant [("p", []), ("q", [])] [] "m" ["p", "q"] ["q", "p"]
      (by decide) (by decide)⟩

end DagChecker
